import Mathlib

/-!
Verification development for the ivfflat k-means training core
(src/ivfkmeans.c): InitCenters (k-means++ seeding), ElkanKmeans
(accelerated Lloyd iteration), QuickCenters (degenerate path),
CheckCenters (post-condition validator) and the IvfflatKmeans driver.

Modelling conventions.
Float values are modelled exactly: a coordinate is either a rational
payload or one of the IEEE special values NaN and signed infinity
(`FVal`).  Arithmetic on finite values is exact (no rounding or
overflow to infinity), which is the standard real-number reading of the
numeric spec.  The caller-supplied distance and norm support functions
are modelled as abstract functions returning exact rationals.  The two
PostgreSQL random sources RandomInt and RandomDouble are modelled as
oracle streams consumed by explicit counters.  PostgreSQL elog(ERROR)
aborts are modelled with Except; CHECK_FOR_INTERRUPTS and the
maintenance_work_mem admission check (whose byte-size macros live
outside this translation unit) are not modelled, as no claim concerns
them.  In-place mutation of caller arrays becomes explicit state
passing: the driver returns the final contents of both the samples
array and the centers array.
-/

namespace Ivf

/-- Exact model of a C float value: a rational payload, or one of the
IEEE special values NaN and signed infinity (`inf true` is positive
infinity, `inf false` negative infinity). -/
inductive FVal where
  | nan : FVal
  | inf : Bool → FVal
  | val : ℚ → FVal
deriving DecidableEq

/-- A dense vector, as stored in a VectorArray slot. -/
abbrev Vec := List FVal

/-- IEEE comparison a < b: any comparison involving NaN is false. -/
def FVal.lt : FVal → FVal → Bool
  | .nan, _ => false
  | _, .nan => false
  | .inf s, .inf t => !s && t
  | .inf s, .val _ => !s
  | .val _, .inf t => t
  | .val p, .val q => decide (p < q)

/-- The isnan predicate of math.h on the float model. -/
def FVal.isnan : FVal → Bool
  | .nan => true
  | _ => false

/-- The isinf predicate of math.h on the float model. -/
def FVal.isinf : FVal → Bool
  | .inf _ => true
  | _ => false

/-- Addition with IEEE special-value propagation; finite values add
exactly. -/
def FVal.add : FVal → FVal → FVal
  | .nan, _ => .nan
  | _, .nan => .nan
  | .inf s, .inf t => if s = t then .inf s else .nan
  | .inf s, .val _ => .inf s
  | .val _, .inf t => .inf t
  | .val p, .val q => .val (p + q)

/-- Division of a float value by a rational scalar, with IEEE
special-value behaviour; finite values divide exactly. -/
def FVal.divQ : FVal → ℚ → FVal
  | .nan, _ => .nan
  | .inf s, q => if 0 < q then .inf s else if q < 0 then .inf (!s) else .nan
  | .val p, q =>
    if q = 0 then (if p = 0 then .nan else .inf (decide (0 < p)))
    else .val (p / q)

/-- FLT_MAX as an exact rational: (2 to the 24th minus 1) times 2 to
the 104th. -/
def fltMax : ℚ := (2 ^ 24 - 1) * 2 ^ 104

/-- Model of vector_cmp_internal (vector.c, reached through
CompareVectors): compare coordinates in order with IEEE comparisons,
then compare dimensions.  Modelled from the spec for the part outside
this translation unit: sorting uses a total order on vectors,
lexicographic by dimension value. -/
def vecCmp : Vec → Vec → ℤ
  | a :: as, b :: bs =>
    if FVal.lt a b then -1
    else if FVal.lt b a then 1
    else vecCmp as bs
  | [], [] => 0
  | [], _ :: _ => -1
  | _ :: _, [] => 1

/-- The non-strict comparison induced by vecCmp, used as the sorting
predicate. -/
def vecLeB (a b : Vec) : Bool := decide (vecCmp a b ≤ 0)

/-- Insert into a sorted list, keeping existing order on ties. -/
def orderedIns {α : Type} (le : α → α → Bool) (a : α) : List α → List α
  | [] => [a]
  | b :: l => if le a b then a :: b :: l else b :: orderedIns le a l

/-- Comparison sort used to model the qsort calls (qsort makes no
stability or strategy promise; any comparison sort is a faithful
model of its observable result on a consistent comparator). -/
def insSort {α : Type} (le : α → α → Bool) : List α → List α
  | [] => []
  | a :: l => orderedIns le a (insSort le l)

/-- qsort(items, length, itemsize, CompareVectors) on a vector array. -/
def sortVecs (l : List Vec) : List Vec := insSort vecLeB l

/-- Tail of the QuickCenters dedup scan: each element is emitted unless
it is byte-equal to its predecessor in the sorted array. -/
def dedupAdjGo (prev : Vec) : List Vec → List Vec
  | [] => []
  | b :: bs => if b = prev then dedupAdjGo b bs else b :: dedupAdjGo b bs

/-- The QuickCenters copy loop: emit index 0, then every element not
byte-equal to its predecessor. -/
def dedupAdj : List Vec → List Vec
  | [] => []
  | a :: rest => a :: dedupAdjGo a rest

/-- The CheckCenters duplicate scan: some adjacent pair is byte-equal. -/
def adjDup : List Vec → Bool
  | a :: b :: rest => if b = a then true else adjDup (b :: rest)
  | _ => false

/-- The vector type tag; only IVFFLAT_TYPE_VECTOR is supported by this
file, every other tag takes the elog(ERROR, "Unsupported type")
branches. -/
inductive IvfflatType where
  | vector : IvfflatType
  | other : IvfflatType
deriving DecidableEq

/-- The fatal errors this file can raise via ereport/elog. -/
inductive KErr where
  | notEnoughCenters : KErr
  | nanDetected : KErr
  | infDetected : KErr
  | duplicateCenters : KErr
  | zeroNorm : KErr
  | unsupportedType : KErr
  | indexingOverflow : KErr
deriving DecidableEq

/-- Model of ApplyNorm: compute the norm with the support function; if
it is strictly positive divide every coordinate by it, otherwise leave
the vector untouched (the source marks zero norm as unhandled). -/
def applyNorm (normf : Vec → ℚ) (v : Vec) : Vec :=
  if 0 < normf v then v.map (fun x => x.divQ (normf v)) else v

/-- Apply the norm support function when it is configured
(normprocinfo not NULL), else do nothing. -/
def applyNormOpt : Option (Vec → ℚ) → Vec → Vec
  | some f, v => applyNorm f v
  | none, v => v

/-- A synthetic center: dimensions coordinates drawn from the
RandomDouble stream starting at counter t. -/
def synthVec (dims : ℕ) (rngD : ℕ → ℚ) (t : ℕ) : Vec :=
  (List.range dims).map fun i => .val (rngD (t + i))

/-- The QuickCenters fill loop: append synthetic centers, each
normalized when the k-means norm support function is configured, until
the array reaches its capacity. -/
def quickFill (maxlen dims : ℕ) (knorm : Option (Vec → ℚ)) (rngD : ℕ → ℚ)
    (t : ℕ) (base : List Vec) : List Vec :=
  base ++ (List.range (maxlen - base.length)).map
    fun m => applyNormOpt knorm (synthVec dims rngD (t + m * dims))

/-- Model of QuickCenters.  For the vector type: sort the samples in
place, emit the deduplicated sorted sequence, then fill to capacity
with synthetic centers.  For an unsupported type the first reached
type dispatch raises; when the samples array is empty and no filling
is needed, no type dispatch is reached at all.  Returns the final
samples array, the centers array and the advanced RandomDouble
counter. -/
def quickCenters (type : IvfflatType) (samples : List Vec) (maxlen dims : ℕ)
    (knorm : Option (Vec → ℚ)) (rngD : ℕ → ℚ) (t : ℕ) :
    Except KErr (List Vec × List Vec × ℕ) :=
  match type with
  | .vector =>
    let ss := sortVecs samples
    let base := dedupAdj ss
    .ok (ss, quickFill maxlen dims knorm rngD t base, t + (maxlen - base.length) * dims)
  | .other =>
    if samples.length = 0 ∧ maxlen = 0 then .ok (samples, [], t)
    else .error .unsupportedType

/-- The per-coordinate NaN and infinity scan of CheckCenters over one
vector, first offending coordinate decides the error. -/
def scanVec : Vec → Option KErr
  | [] => none
  | x :: xs =>
    if x.isnan then some .nanDetected
    else if x.isinf then some .infDetected
    else scanVec xs

/-- The NaN and infinity scan of CheckCenters over all centers. -/
def scanNanInf : List Vec → Option KErr
  | [] => none
  | v :: vs =>
    match scanVec v with
    | some e => some e
    | none => scanNanInf vs

/-- Model of CheckCenters: length check, NaN and infinity scan,
in-place sort followed by the adjacent duplicate scan, and, when the
index-level norm support function (NORM_PROC, distinct from
KMEANS_NORM_PROC) is configured, the zero-norm scan.  On success the
centers array is returned in its final (sorted) state. -/
def checkCenters (type : IvfflatType) (maxlen : ℕ) (inorm : Option (Vec → ℚ))
    (centers : List Vec) : Except KErr (List Vec) :=
  if centers.length ≠ maxlen then .error .notEnoughCenters
  else
    match scanNanInf centers with
    | some e => .error e
    | none =>
      match type with
      | .vector =>
        let sc := sortVecs centers
        if adjDup sc then .error .duplicateCenters
        else
          match inorm with
          | some f =>
            if sc.any (fun v => decide (f v = 0)) then .error .zeroNorm else .ok sc
          | none => .ok sc
      | .other => .error .unsupportedType

/-- The inputs shared by InitCenters and ElkanKmeans: array sizes, the
read-only samples accessor, the k-means distance and optional k-means
norm support functions, and the RandomDouble stream. -/
structure KParams where
  numSamples : ℕ
  numCenters : ℕ
  dims : ℕ
  samples : ℕ → Vec
  dist : Vec → Vec → ℚ
  norm : Option (Vec → ℚ)
  rngD : ℕ → ℚ

/-- Pointwise update of a function-modelled array. -/
def upd {α : Type} (f : ℕ → α) (i : ℕ) (v : α) : ℕ → α :=
  fun j => if j = i then v else f j

/-- Pointwise update of a function-modelled matrix. -/
def upd2 (f : ℕ → ℕ → ℚ) (i j : ℕ) (v : ℚ) : ℕ → ℕ → ℚ :=
  fun a b => if a = i ∧ b = j then v else f a b

/-- The mutable state of InitCenters: the centers being chosen, the
per-sample weights, the lower-bound matrix being primed, and the
RandomDouble counter. -/
structure InitSt where
  centers : ℕ → Vec
  weight : ℕ → ℚ
  lower : ℕ → ℕ → ℚ
  t : ℕ

/-- The body of the InitCenters inner loop for column i and sample j:
compute the distance to center i, store it in the lower-bound matrix,
fold the squared distance into the weight, and accumulate the running
weight sum. -/
def initColStep (P : KParams) (i : ℕ) (acc : InitSt × ℚ) (j : ℕ) : InitSt × ℚ :=
  let d := P.dist (P.samples j) (acc.1.centers i)
  let w := if d * d < acc.1.weight j then d * d else acc.1.weight j
  ({ acc.1 with lower := upd2 acc.1.lower j i d, weight := upd acc.1.weight j w },
   acc.2 + w)

/-- One pass of the InitCenters inner loop over all samples for
column i. -/
def initColumn (P : KParams) (i : ℕ) (st : InitSt) : InitSt × ℚ :=
  (List.range P.numSamples).foldl (initColStep P i) (st, 0)

/-- The weighted-selection walk of InitCenters: subtract weights from
the drawn choice for j up to numSamples minus 2, stopping at the first
j whose subtraction makes the choice nonpositive. -/
def selectJGo (weight : ℕ → ℚ) : ℕ → ℕ → ℚ → ℕ
  | j, 0, _ => j
  | j, fuel + 1, choice =>
    let c := choice - weight j
    if c ≤ 0 then j else selectJGo weight (j + 1) fuel c

/-- Weighted selection of the next center index. -/
def selectJ (weight : ℕ → ℚ) (numSamples : ℕ) (choice : ℚ) : ℕ :=
  selectJGo weight 0 (numSamples - 1) choice

/-- The InitCenters outer loop from column index i with the given fuel:
process the column, stop after the last column (which exists only to
populate the last column of the lower-bound matrix), otherwise draw the
next center by weighted probability and continue. -/
def initLoop (P : KParams) : ℕ → ℕ → InitSt → InitSt
  | _, 0, st => st
  | i, fuel + 1, st =>
    let cs := initColumn P i st
    if i + 1 = P.numCenters then cs.1
    else
      let choice := cs.2 * P.rngD cs.1.t
      let jsel := selectJ cs.1.weight P.numSamples choice
      initLoop P (i + 1) fuel
        { cs.1 with
          centers := upd cs.1.centers (i + 1) (P.samples jsel),
          t := cs.1.t + 1 }

/-- Model of InitCenters: choose center 0 uniformly from the samples
via RandomInt, set all weights to FLT_MAX, and run the kmeans++ loop.
The lower-bound matrix starts from the unspecified palloc contents,
modelled as all zero; every in-range entry is overwritten. -/
def initCenters (P : KParams) (rngI : ℕ) (t0 : ℕ) : InitSt :=
  initLoop P 0 P.numCenters
    { centers := upd (fun _ => []) 0 (P.samples (rngI % P.numSamples)),
      weight := fun _ => fltMax,
      lower := fun _ _ => 0,
      t := t0 }

/-- One comparison of the initial assignment scan: strict improvement
over the current minimum, lowest index wins. -/
def assignStep (lower : ℕ → ℕ → ℚ) (j : ℕ) (md : ℚ × ℕ) (k : ℕ) : ℚ × ℕ :=
  if lower j k < md.1 then (lower j k, k) else md

/-- The assignment scan run after InitCenters: for sample j take the
minimum entry of its lower-bound row (folded from a FLT_MAX sentinel)
and the index attaining it. -/
def initAssign (P : KParams) (lower : ℕ → ℕ → ℚ) (j : ℕ) : ℚ × ℕ :=
  (List.range P.numCenters).foldl (assignStep lower j) (fltMax, 0)

/-- The mutable state of the ElkanKmeans outer loop: current centers,
the two bound arrays, the assignment array, and the RandomDouble
counter. -/
structure EState where
  centers : ℕ → Vec
  lower : ℕ → ℕ → ℚ
  upper : ℕ → ℚ
  closest : ℕ → ℕ
  t : ℕ

/-- The part of the Elkan state written by the Step 2 and 3 pass. -/
structure Step3St where
  lower : ℕ → ℕ → ℚ
  upper : ℕ → ℚ
  closest : ℕ → ℕ
  changes : ℕ

/-- Step 1 inter-center half distances: the source computes
0.5 times the distance for every pair a less than b and mirrors it; the
diagonal is never read. -/
def halfcdist (P : KParams) (centers : ℕ → Vec) (a b : ℕ) : ℚ :=
  if a < b then 1 / 2 * P.dist (centers a) (centers b)
  else 1 / 2 * P.dist (centers b) (centers a)

/-- Step 1 closest inter-center distance s(c): minimum of the half
distances to the other centers, folded from a FLT_MAX sentinel. -/
def sOf (P : KParams) (centers : ℕ → Vec) (a : ℕ) : ℚ :=
  (List.range P.numCenters).foldl
    (fun m k => if k = a then m else if halfcdist P centers a k < m then halfcdist P centers a k else m)
    fltMax

/-- Step 3a: recompute the distance from sample j to its currently
assigned center, making both its lower-bound entry and its upper bound
tight. -/
def step3a (P : KParams) (centers : ℕ → Vec) (j : ℕ) (s : Step3St) : Step3St :=
  { s with
    lower := upd2 s.lower j (s.closest j) (P.dist (P.samples j) (centers (s.closest j))),
    upper := upd s.upper j (P.dist (P.samples j) (centers (s.closest j))) }

/-- Step 3b for sample j and candidate center k.  The d(x,c(x)) value
of the source is the current upper bound of j (after Step 3a runs the
upper bound holds the freshly computed distance, so reading it back
yields exactly the d(x,c(x)) of the source in both the stale and the
fresh case): when the pruning test passes, compute the distance to
center k, record it as the new lower bound, and reassign when it is a
strict improvement. -/
def step3b (P : KParams) (centers : ℕ → Vec) (hcd : ℕ → ℕ → ℚ) (j k : ℕ)
    (s1 : Step3St) : Step3St :=
  if s1.lower j k < s1.upper j ∨ hcd (s1.closest j) k < s1.upper j then
    if P.dist (P.samples j) (centers k) < s1.upper j then
      { s1 with
        lower := upd2 s1.lower j k (P.dist (P.samples j) (centers k)),
        closest := upd s1.closest j k,
        upper := upd s1.upper j (P.dist (P.samples j) (centers k)),
        changes := s1.changes + 1 }
    else
      { s1 with lower := upd2 s1.lower j k (P.dist (P.samples j) (centers k)) }
  else s1

/-- The body of the Step 3 loop over candidate centers k for sample j.
The Boolean component is the per-sample staleness flag r: once the
skip tests fail, Step 3a refreshes the bounds when the flag is set,
and the flag is cleared. -/
def step3Inner (P : KParams) (centers : ℕ → Vec) (hcd : ℕ → ℕ → ℚ) (j : ℕ)
    (st : Step3St × Bool) (k : ℕ) : Step3St × Bool :=
  if k = st.1.closest j then st
  else if st.1.upper j ≤ st.1.lower j k then st
  else if st.1.upper j ≤ hcd (st.1.closest j) k then st
  else
    (step3b P centers hcd j k (if st.2 then step3a P centers j st.1 else st.1), false)

/-- Steps 2 and 3 for one sample: skip it entirely when its upper bound
is at most s of its assigned center, otherwise scan all candidate
centers with the staleness flag reset to rjreset. -/
def step3Sample (P : KParams) (centers : ℕ → Vec) (hcd : ℕ → ℕ → ℚ)
    (sArr : ℕ → ℚ) (rjreset : Bool) (s : Step3St) (j : ℕ) : Step3St :=
  if s.upper j ≤ sArr (s.closest j) then s
  else ((List.range P.numCenters).foldl (step3Inner P centers hcd j) (s, rjreset)).1

/-- The full Step 2 and 3 pass over all samples. -/
def step3 (P : KParams) (centers : ℕ → Vec) (rjreset : Bool) (s : Step3St) : Step3St :=
  (List.range P.numSamples).foldl
    (step3Sample P centers (halfcdist P centers) (sOf P centers) rjreset) s

/-- Step 4 count of samples assigned to center c. -/
def centerCount (P : KParams) (closest : ℕ → ℕ) (c : ℕ) : ℕ :=
  (List.range P.numSamples).foldl (fun acc j => if closest j = c then acc + 1 else acc) 0

/-- A zeroed new-centers workspace vector. -/
def zeroVec (dims : ℕ) : Vec := (List.range dims).map fun _ => FVal.val 0

/-- Coordinate-wise accumulation of one sample into a workspace
vector. -/
def addInto (dims : ℕ) (acc v : Vec) : Vec :=
  (List.range dims).map fun k => (acc.getD k (.val 0)).add (v.getD k (.val 0))

/-- Step 4 coordinate sums of the samples assigned to center c, in
sample order. -/
def sumAssigned (P : KParams) (closest : ℕ → ℕ) (c : ℕ) : Vec :=
  (List.range P.numSamples).foldl
    (fun acc j => if closest j = c then addInto P.dims acc (P.samples j) else acc)
    (zeroVec P.dims)

/-- The Step 4 infinity clamp: a coordinate that overflowed to
infinity during summation is replaced by FLT_MAX of the matching
sign. -/
def clampInf : FVal → FVal
  | .inf s => .val (if s then fltMax else -fltMax)
  | x => x

/-- Step 4 mean for a nonempty center: clamp infinities, then divide
every coordinate by the count. -/
def meanCenter (P : KParams) (closest : ℕ → ℕ) (c : ℕ) : Vec :=
  ((sumAssigned P closest c).map clampInf).map
    fun x => x.divQ (centerCount P closest c : ℚ)

/-- Step 4 replacement center: the mean when the center is nonempty,
otherwise a synthetic random vector; in either case normalized when
the k-means norm support function is configured.  Returns the vector
and the advanced RandomDouble counter. -/
def newCenterAt (P : KParams) (closest : ℕ → ℕ) (t : ℕ) (c : ℕ) : Vec × ℕ :=
  if 0 < centerCount P closest c then
    (applyNormOpt P.norm (meanCenter P closest c), t)
  else
    (applyNormOpt P.norm (synthVec P.dims P.rngD t), t + P.dims)

/-- The full Step 4: build the new-centers workspace, threading the
RandomDouble counter through the empty centers in index order. -/
def newCentersStep4 (P : KParams) (closest : ℕ → ℕ) (t0 : ℕ) : (ℕ → Vec) × ℕ :=
  let r := (List.range P.numCenters).foldl
    (fun (acc : List Vec × ℕ) c =>
      let vc := newCenterAt P closest acc.2 c
      (acc.1 ++ [vc.1], vc.2))
    ([], t0)
  (fun c => r.1.getD c [], r.2)

/-- Step 5 center shifts: distance from each old center to its
replacement. -/
def newcdistOf (P : KParams) (centers nc : ℕ → Vec) (c : ℕ) : ℚ :=
  P.dist (centers c) (nc c)

/-- Step 5: widen every in-range lower bound by the shift of its
center, clamped at zero. -/
def step5lower (P : KParams) (ncd : ℕ → ℚ) (lower : ℕ → ℕ → ℚ) : ℕ → ℕ → ℚ :=
  fun j k =>
    if j < P.numSamples ∧ k < P.numCenters then
      (if lower j k - ncd k < 0 then 0 else lower j k - ncd k)
    else lower j k

/-- Step 6: widen every in-range upper bound by the shift of the
assigned center. -/
def step6upper (P : KParams) (ncd : ℕ → ℚ) (closest : ℕ → ℕ) (upper : ℕ → ℚ) : ℕ → ℚ :=
  fun j => if j < P.numSamples then upper j + ncd (closest j) else upper j

/-- Step 7: copy the new centers over the centers array. -/
def step7centers (P : KParams) (centers nc : ℕ → Vec) : ℕ → Vec :=
  fun c => if c < P.numCenters then nc c else centers c

/-- Steps 4 to 7 of one iteration: build the new centers from the
Step 3 assignments, compute the center shifts, widen both bound
arrays, and commit the new centers. -/
def elkanCommit (P : KParams) (centers : ℕ → Vec) (s3 : Step3St) (t : ℕ) : EState :=
  { centers := step7centers P centers (newCentersStep4 P s3.closest t).1,
    lower := step5lower P (newcdistOf P centers (newCentersStep4 P s3.closest t).1) s3.lower,
    upper := step6upper P (newcdistOf P centers (newCentersStep4 P s3.closest t).1)
      s3.closest s3.upper,
    closest := s3.closest,
    t := (newCentersStep4 P s3.closest t).2 }

/-- One full iteration of the ElkanKmeans outer loop, returning the
new state and the number of assignment changes. -/
def elkanIter (P : KParams) (st : EState) (iteration : ℕ) : EState × ℕ :=
  (elkanCommit P st.centers
    (step3 P st.centers (iteration ≠ 0) ⟨st.lower, st.upper, st.closest, 0⟩) st.t,
   (step3 P st.centers (iteration ≠ 0) ⟨st.lower, st.upper, st.closest, 0⟩).changes)

/-- The Elkan state entering the first iteration: InitCenters output
plus the initial assignment scan of its lower-bound matrix. -/
def elkanInitState (P : KParams) (rngI : ℕ) : EState :=
  let ist := initCenters P rngI 0
  { centers := ist.centers,
    lower := ist.lower,
    upper := fun j => (initAssign P ist.lower j).1,
    closest := fun j => (initAssign P ist.lower j).2,
    t := ist.t }

/-- The Elkan state after n full iterations, ignoring the early-exit
test (each executed iteration agrees with this sequence). -/
def elkanStateAt (P : KParams) (rngI : ℕ) : ℕ → EState
  | 0 => elkanInitState P rngI
  | n + 1 => (elkanIter P (elkanStateAt P rngI n) n).1

/-- The number of assignment changes produced by iteration n. -/
def elkanChangesAt (P : KParams) (rngI : ℕ) (n : ℕ) : ℕ :=
  (elkanIter P (elkanStateAt P rngI n) n).2

/-- The ElkanKmeans outer loop with its early-exit test, from iteration
index i with the given fuel; returns the final state and the number of
iterations executed. -/
def elkanLoop (P : KParams) : EState → ℕ → ℕ → EState × ℕ
  | st, _, 0 => (st, 0)
  | st, i, fuel + 1 =>
    if (elkanIter P st i).2 = 0 ∧ i ≠ 0 then ((elkanIter P st i).1, 1)
    else
      ((elkanLoop P (elkanIter P st i).1 (i + 1) fuel).1,
       (elkanLoop P (elkanIter P st i).1 (i + 1) fuel).2 + 1)

/-- The number of outer iterations ElkanKmeans executes. -/
def elkanIterCount (P : KParams) (rngI : ℕ) : ℕ :=
  (elkanLoop P (elkanInitState P rngI) 0 500).2

/-- INT_MAX for 32-bit int. -/
def intMax : ℤ := 2 ^ 31 - 1

/-- Two-complement wraparound of a mathematical integer into the
32-bit signed range, the usual shallow model of C int overflow. -/
def wrap32 (x : ℤ) : ℤ := (x + 2 ^ 31) % 2 ^ 32 - 2 ^ 31

/-- The indexing-overflow guard of ElkanKmeans as written in the
source: numCenters times numCenters is computed in 32-bit int
arithmetic (hence wraps) and then compared against INT_MAX. -/
def overflowGuard (numCenters : ℤ) : Bool :=
  decide (intMax < wrap32 (numCenters * numCenters))

/-- Model of ElkanKmeans: the indexing-overflow guard, InitCenters,
the initial assignment scan, and up to 500 bounded Lloyd iterations;
returns the final centers array.  The maintenance_work_mem admission
check is not modelled (its size macros live outside this translation
unit) and CHECK_FOR_INTERRUPTS is not modelled. -/
def elkanKmeans (P : KParams) (rngI : ℕ) : Except KErr (List Vec) :=
  if overflowGuard P.numCenters then .error .indexingOverflow
  else
    .ok ((List.range P.numCenters).map
      (elkanLoop P (elkanInitState P rngI) 0 500).1.centers)

/-- Model of IvfflatKmeans: dispatch on the sample count, then validate
with CheckCenters.  Returns the final contents of the caller-owned
samples and centers arrays. -/
def ivfflatKmeans (type : IvfflatType) (samples : List Vec) (maxlen dims : ℕ)
    (dist : Vec → Vec → ℚ) (knorm inorm : Option (Vec → ℚ))
    (rngI : ℕ) (rngD : ℕ → ℚ) : Except KErr (List Vec × List Vec) :=
  if samples.length ≤ maxlen then
    match quickCenters type samples maxlen dims knorm rngD 0 with
    | .error e => .error e
    | .ok r =>
      match checkCenters type maxlen inorm r.2.1 with
      | .error e => .error e
      | .ok sc => .ok (r.1, sc)
  else
    match elkanKmeans ⟨samples.length, maxlen, dims, fun j => samples.getD j [], dist, knorm, rngD⟩ rngI with
    | .error e => .error e
    | .ok cs =>
      match checkCenters type maxlen inorm cs with
      | .error e => .error e
      | .ok sc => .ok (samples, sc)

/-! ## Predicates used by the theorems -/

/-- A vector with no NaN coordinate. -/
def NFree (v : Vec) : Prop := ∀ x ∈ v, x ≠ FVal.nan

/-- The list is sorted with respect to the Boolean comparison. -/
def SortedB {α : Type} (le : α → α → Bool) (l : List α) : Prop :=
  l.Pairwise (fun a b => le a b = true)

/-- The disjunction of conditions under which CheckCenters raises a
fatal error (for the supported vector type): wrong length, a NaN
coordinate, an infinite coordinate, two byte-equal centers, or a
zero-norm center while the index-level norm support function is
configured. -/
def CheckFailCond (maxlen : ℕ) (inorm : Option (Vec → ℚ)) (centers : List Vec) : Prop :=
  centers.length ≠ maxlen ∨
  (∃ v ∈ centers, ∃ x ∈ v, x.isnan = true) ∨
  (∃ v ∈ centers, ∃ x ∈ v, x.isinf = true) ∨
  ¬ centers.Nodup ∨
  (∃ f, inorm = some f ∧ ∃ v ∈ centers, f v = 0)

/-- The Elkan bound invariant: every assignment is a valid center
index, every lower-bound entry is at most the true distance from its
sample to its center, and every upper bound is at least the true
distance from its sample to its assigned center. -/
def ElkanInv (P : KParams) (st : EState) : Prop :=
  (∀ j, j < P.numSamples → st.closest j < P.numCenters) ∧
  (∀ j, j < P.numSamples → ∀ k, k < P.numCenters →
    st.lower j k ≤ P.dist (P.samples j) (st.centers k)) ∧
  (∀ j, j < P.numSamples →
    P.dist (P.samples j) (st.centers (st.closest j)) ≤ st.upper j)

/-- The same bound invariant, phrased on the state written by the
Step 2 and 3 pass relative to a fixed centers array. -/
def Step3Inv (P : KParams) (centers : ℕ → Vec) (s : Step3St) : Prop :=
  (∀ j, j < P.numSamples → s.closest j < P.numCenters) ∧
  (∀ j, j < P.numSamples → ∀ k, k < P.numCenters →
    s.lower j k ≤ P.dist (P.samples j) (centers k)) ∧
  (∀ j, j < P.numSamples →
    P.dist (P.samples j) (centers (s.closest j)) ≤ s.upper j)

/-! ## Generic fold lemmas -/

theorem foldl_inv {α β : Type} (f : β → α → β) (Q : β → Prop) :
    ∀ (l : List α) (init : β), (∀ b a, a ∈ l → Q b → Q (f b a)) → Q init →
      Q (l.foldl f init) := by
  intro l
  induction l with
  | nil => intro init _ h0; exact h0
  | cons a l ih =>
    intro init h h0
    exact ih (f init a) (fun b x hx hb => h b x (List.mem_cons_of_mem a hx) hb)
      (h init a (List.mem_cons_self a l) h0)

/-! ## Order lemmas for the float model and vector comparison -/

theorem FVal.lt_asymm : ∀ {x y : FVal}, FVal.lt x y = true → FVal.lt y x = false := by
  intro x y h
  cases x <;> cases y <;> simp_all [FVal.lt]
  exact h.le

theorem FVal.lt_irr : ∀ x : FVal, FVal.lt x x = false := by
  intro x
  cases x <;> simp [FVal.lt]

theorem FVal.lt_tr : ∀ {x y z : FVal}, FVal.lt x y = true → FVal.lt y z = true →
    FVal.lt x z = true := by
  intro x y z h1 h2
  cases x <;> cases y <;> cases z <;> simp_all [FVal.lt]
  exact h1.trans h2

theorem FVal.eq_of_not_lt : ∀ {x y : FVal}, x ≠ FVal.nan → y ≠ FVal.nan →
    FVal.lt x y = false → FVal.lt y x = false → x = y := by
  intro x y hx hy h1 h2
  cases x <;> cases y <;> simp_all [FVal.lt]
  · rename_i s t
    cases s <;> cases t <;> simp_all
  · exact le_antisymm h2 h1

theorem NFree.tail {x : FVal} {l : Vec} (h : NFree (x :: l)) : NFree l :=
  fun a ha => h a (List.mem_cons_of_mem x ha)

theorem NFree.head {x : FVal} {l : Vec} (h : NFree (x :: l)) : x ≠ FVal.nan :=
  h x (List.mem_cons_self x l)

theorem vecCmp_flip : ∀ a b : Vec, vecCmp b a = -vecCmp a b := by
  intro a
  induction a with
  | nil => intro b; cases b <;> simp [vecCmp]
  | cons x as ih =>
    intro b
    cases b with
    | nil => simp [vecCmp]
    | cons y bs =>
      by_cases h1 : FVal.lt x y = true
      · simp [vecCmp, h1, FVal.lt_asymm h1]
      · by_cases h2 : FVal.lt y x = true
        · simp [vecCmp, h1, h2, FVal.lt_asymm h2]
        · simp [vecCmp, h1, h2, ih bs]

theorem vecCmp_self : ∀ a : Vec, vecCmp a a = 0 := by
  intro a
  induction a with
  | nil => simp [vecCmp]
  | cons x as ih => simp [vecCmp, FVal.lt_irr, ih]

theorem vecCmp_eq_zero (ha : NFree a) (hb : NFree b) (h : vecCmp a b = 0) :
    a = b := by
  induction a generalizing b with
  | nil => cases b with
    | nil => rfl
    | cons y bs => simp [vecCmp] at h
  | cons x as ih =>
    cases b with
    | nil => simp [vecCmp] at h
    | cons y bs =>
      by_cases h1 : FVal.lt x y = true
      · simp [vecCmp, h1] at h
      · by_cases h2 : FVal.lt y x = true
        · simp [vecCmp, h1, h2] at h
        · have hxy : x = y :=
            FVal.eq_of_not_lt ha.head hb.head (by simpa using h1) (by simpa using h2)
          simp only [vecCmp, h1, if_false, h2] at h
          rw [hxy, ih ha.tail hb.tail (by simpa [h1, h2] using h)]

theorem vecCmp_le_trans : ∀ (a b c : Vec), NFree a → NFree b → NFree c →
    vecCmp a b ≤ 0 → vecCmp b c ≤ 0 → vecCmp a c ≤ 0 := by
  intro a
  induction a with
  | nil =>
    intro b c _ _ _ _ _
    cases c <;> simp [vecCmp]
  | cons x as ih =>
    intro b c ha hb hc hab hbc
    cases b with
    | nil => simp [vecCmp] at hab
    | cons y bs =>
      cases c with
      | nil => simp [vecCmp] at hbc
      | cons z cs =>
        by_cases h1 : FVal.lt x y = true
        · by_cases h2 : FVal.lt y z = true
          · simp [vecCmp, FVal.lt_tr h1 h2]
          · by_cases h3 : FVal.lt z y = true
            · simp [vecCmp, h2, h3] at hbc
            · have hyz : y = z :=
                FVal.eq_of_not_lt hb.head hc.head (by simpa using h2) (by simpa using h3)
              subst hyz
              simp [vecCmp, h1]
        · by_cases h1' : FVal.lt y x = true
          · simp [vecCmp, h1, h1'] at hab
          · have hxy : x = y :=
              FVal.eq_of_not_lt ha.head hb.head (by simpa using h1) (by simpa using h1')
            subst hxy
            by_cases h2 : FVal.lt x z = true
            · simp [vecCmp, h2]
            · by_cases h3 : FVal.lt z x = true
              · simp [vecCmp, h2, h3] at hbc
              · simp only [vecCmp, h1, if_false, h2, h3] at hab hbc ⊢
                exact ih bs cs ha.tail hb.tail hc.tail hab hbc

theorem vecLeB_total (a b : Vec) : vecLeB a b = true ∨ vecLeB b a = true := by
  simp only [vecLeB, decide_eq_true_eq]
  rw [vecCmp_flip]
  omega

theorem vecLeB_trans (ha : NFree a) (hb : NFree b) (hc : NFree c)
    (h1 : vecLeB a b = true) (h2 : vecLeB b c = true) : vecLeB a c = true := by
  simp only [vecLeB, decide_eq_true_eq] at h1 h2 ⊢
  exact vecCmp_le_trans a b c ha hb hc h1 h2

theorem vec_eq_of_le_le (ha : NFree a) (hb : NFree b)
    (h1 : vecLeB a b = true) (h2 : vecLeB b a = true) : a = b := by
  simp only [vecLeB, decide_eq_true_eq] at h1 h2
  rw [vecCmp_flip] at h2
  exact vecCmp_eq_zero ha hb (by omega)

/-! ## Sorting lemmas -/

theorem orderedIns_perm {α : Type} (le : α → α → Bool) (a : α) :
    ∀ l : List α, (orderedIns le a l).Perm (a :: l) := by
  intro l
  induction l with
  | nil => simp [orderedIns]
  | cons b l ih =>
    by_cases h : le a b = true
    · simp [orderedIns, h]
    · simp only [orderedIns, h, if_false]
      exact (ih.cons b).trans (List.Perm.swap a b l)

theorem insSort_perm {α : Type} (le : α → α → Bool) :
    ∀ l : List α, (insSort le l).Perm l := by
  intro l
  induction l with
  | nil => simp [insSort]
  | cons a l ih => exact (orderedIns_perm le a (insSort le l)).trans (ih.cons a)

theorem sortVecs_perm (l : List Vec) : (sortVecs l).Perm l := insSort_perm vecLeB l

theorem mem_sortVecs {v : Vec} {l : List Vec} : v ∈ sortVecs l ↔ v ∈ l :=
  (sortVecs_perm l).mem_iff

theorem orderedIns_sorted {α : Type} {le : α → α → Bool} {G : α → Prop}
    (htot : ∀ x y, le x y = true ∨ le y x = true)
    (htr : ∀ x y z, G x → G y → G z → le x y = true → le y z = true → le x z = true) :
    ∀ {a : α} {l : List α}, G a → (∀ x ∈ l, G x) → SortedB le l →
      SortedB le (orderedIns le a l) := by
  intro a l
  induction l with
  | nil => intro _ _ _; simp [orderedIns, SortedB]
  | cons b l ih =>
    intro hga hgl hs
    by_cases h : le a b = true
    · simp only [orderedIns, h, if_true]
      refine List.Pairwise.cons ?_ hs
      intro x hx
      rcases List.mem_cons.mp hx with hx | hx
      · subst hx; exact h
      · exact htr a b x hga (hgl b (List.mem_cons_self b l)) (hgl x (List.mem_cons_of_mem b hx)) h
          ((List.pairwise_cons.mp hs).1 x hx)
    · have h' : le b a = true := (htot a b).resolve_left h
      simp only [orderedIns, h, if_false]
      refine List.Pairwise.cons ?_
        (ih hga (fun x hx => hgl x (List.mem_cons_of_mem b hx)) (List.Pairwise.of_cons hs))
      intro x hx
      rcases List.mem_cons.mp ((orderedIns_perm le a l).mem_iff.mp hx) with hx | hx
      · subst hx; exact h'
      · exact (List.pairwise_cons.mp hs).1 x hx

theorem insSort_sorted {α : Type} {le : α → α → Bool} {G : α → Prop}
    (htot : ∀ x y, le x y = true ∨ le y x = true)
    (htr : ∀ x y z, G x → G y → G z → le x y = true → le y z = true → le x z = true) :
    ∀ {l : List α}, (∀ x ∈ l, G x) → SortedB le (insSort le l) := by
  intro l
  induction l with
  | nil => intro _; simp [insSort, SortedB]
  | cons a l ih =>
    intro hg
    exact orderedIns_sorted htot htr (hg a (List.mem_cons_self a l))
      (fun x hx => hg x (List.mem_cons_of_mem a ((insSort_perm le l).mem_iff.mp hx)))
      (ih fun x hx => hg x (List.mem_cons_of_mem a hx))

theorem sortVecs_sorted {l : List Vec} (h : ∀ v ∈ l, NFree v) :
    SortedB vecLeB (sortVecs l) :=
  insSort_sorted vecLeB_total (fun _ _ _ gx gy gz => vecLeB_trans gx gy gz) h

/-! ## Duplicate-scan lemmas -/

theorem not_nodup_of_adjDup : ∀ {l : List Vec}, adjDup l = true → ¬ l.Nodup := by
  intro l
  induction l with
  | nil => intro h; simp [adjDup] at h
  | cons a l ih =>
    intro h hn
    cases l with
    | nil => simp [adjDup] at h
    | cons b rest =>
      by_cases hba : b = a
      · subst hba
        exact (List.nodup_cons.mp hn).1 (List.mem_cons_self b rest)
      · simp only [adjDup, hba, if_false] at h
        exact ih h (List.nodup_cons.mp hn).2

theorem nodup_of_sorted_no_adjDup : ∀ {l : List Vec}, SortedB vecLeB l →
    (∀ v ∈ l, NFree v) → adjDup l = false → l.Nodup := by
  intro l
  induction l with
  | nil => intro _ _ _; exact List.nodup_nil
  | cons a l ih =>
    intro hs hf hd
    cases l with
    | nil => simp
    | cons b rest =>
      have hba : ¬ b = a := by
        intro hba
        simp [adjDup, hba] at hd
      simp only [adjDup, hba, if_false] at hd
      refine List.nodup_cons.mpr ⟨?_, ih (List.Pairwise.of_cons hs)
        (fun v hv => hf v (List.mem_cons_of_mem a hv)) hd⟩
      intro hmem
      have hab : vecLeB a b = true := (List.pairwise_cons.mp hs).1 b (List.mem_cons_self b rest)
      rcases List.mem_cons.mp hmem with hmem | hmem
      · exact hba hmem.symm
      · have hba' : vecLeB b a = true :=
          (List.pairwise_cons.mp (List.Pairwise.of_cons hs)).1 a hmem
        have : b = a := vec_eq_of_le_le
          (hf b (List.mem_cons_of_mem a (List.mem_cons_self b rest)))
          (hf a (List.mem_cons_self a (b :: rest)))
          hba' hab
        exact hba this

/-! ## NaN and infinity scan lemmas -/

theorem scanVec_eq_none_iff : ∀ {v : Vec},
    scanVec v = none ↔ ∀ x ∈ v, x.isnan = false ∧ x.isinf = false := by
  intro v
  induction v with
  | nil => simp [scanVec]
  | cons x xs ih =>
    by_cases hn : x.isnan = true
    · simp [scanVec, hn]
    · by_cases hi : x.isinf = true
      · simp [scanVec, hn, hi]
      · simp only [Bool.not_eq_true] at hn hi
        simp [scanVec, hn, hi, ih]

theorem scanNanInf_eq_none_iff : ∀ {l : List Vec},
    scanNanInf l = none ↔ ∀ v ∈ l, scanVec v = none := by
  intro l
  induction l with
  | nil => simp [scanNanInf]
  | cons v vs ih =>
    cases hv : scanVec v with
    | some e => simp [scanNanInf, hv]
    | none => simp [scanNanInf, hv, ih]

theorem nfree_of_scan_none {l : List Vec} (h : scanNanInf l = none) :
    ∀ v ∈ l, NFree v := by
  intro v hv x hx hnan
  have := (scanVec_eq_none_iff.mp (scanNanInf_eq_none_iff.mp h v hv) x hx).1
  rw [hnan] at this
  simp [FVal.isnan] at this

theorem scanVec_ne_none {v : Vec} (h : ¬ scanVec v = none) :
    ∃ x ∈ v, x.isnan = true ∨ x.isinf = true := by
  by_contra hc
  refine h (scanVec_eq_none_iff.mpr fun x hx => ?_)
  have h2 : ¬ (x.isnan = true ∨ x.isinf = true) := fun hb => hc ⟨x, hx, hb⟩
  constructor
  · cases hb : FVal.isnan x
    · rfl
    · exact absurd (Or.inl hb) h2
  · cases hb : FVal.isinf x
    · rfl
    · exact absurd (Or.inr hb) h2

theorem scanNanInf_ne_none {l : List Vec} (h : ¬ scanNanInf l = none) :
    ∃ v ∈ l, ∃ x ∈ v, x.isnan = true ∨ x.isinf = true := by
  by_contra hc
  refine h (scanNanInf_eq_none_iff.mpr fun v hv => ?_)
  cases hsv : scanVec v with
  | none => rfl
  | some e =>
    rcases scanVec_ne_none (v := v) (by simp [hsv]) with ⟨x, hx, hb⟩
    exact absurd ⟨v, hv, x, hx, hb⟩ hc

/-! ## Dedup lemmas -/

theorem dedupAdjGo_cons_eq {prev b : Vec} (bs : List Vec) (h : b = prev) :
    dedupAdjGo prev (b :: bs) = dedupAdjGo b bs := by
  simp [dedupAdjGo, h]

theorem dedupAdjGo_cons_ne {prev b : Vec} (bs : List Vec) (h : ¬ b = prev) :
    dedupAdjGo prev (b :: bs) = b :: dedupAdjGo b bs := by
  simp [dedupAdjGo, h]

theorem mem_dedupAdjGo : ∀ (l : List Vec) (prev v : Vec), v ∈ l →
    v ∈ dedupAdjGo prev l ∨ v = prev := by
  intro l
  induction l with
  | nil => intro prev v hv; exact absurd hv (List.not_mem_nil v)
  | cons b bs ih =>
    intro prev v hv
    by_cases hb : b = prev
    · rw [dedupAdjGo_cons_eq bs hb]
      rcases List.mem_cons.mp hv with hv | hv
      · exact Or.inr (hv.trans hb)
      · rcases ih b v hv with h | h
        · exact Or.inl h
        · exact Or.inr (h.trans hb)
    · rw [dedupAdjGo_cons_ne bs hb]
      rcases List.mem_cons.mp hv with hv | hv
      · exact Or.inl (hv ▸ List.mem_cons_self b _)
      · rcases ih b v hv with h | h
        · exact Or.inl (List.mem_cons_of_mem b h)
        · exact Or.inl (h ▸ List.mem_cons_self b _)

theorem mem_dedupAdj {l : List Vec} {v : Vec} (hv : v ∈ l) : v ∈ dedupAdj l := by
  cases l with
  | nil => exact absurd hv (List.not_mem_nil v)
  | cons a rest =>
    simp only [dedupAdj]
    rcases List.mem_cons.mp hv with hv | hv
    · exact hv ▸ List.mem_cons_self a _
    · rcases mem_dedupAdjGo rest a v hv with h | h
      · exact List.mem_cons_of_mem a h
      · exact h ▸ List.mem_cons_self a _

theorem dedupAdjGo_sublist : ∀ (l : List Vec) (prev : Vec),
    (dedupAdjGo prev l).Sublist l := by
  intro l
  induction l with
  | nil => intro prev; simp [dedupAdjGo]
  | cons b bs ih =>
    intro prev
    by_cases hb : b = prev
    · rw [dedupAdjGo_cons_eq bs hb]
      exact (ih b).cons b
    · rw [dedupAdjGo_cons_ne bs hb]
      exact (ih b).cons₂ b

theorem dedupAdj_sublist : ∀ l : List Vec, (dedupAdj l).Sublist l := by
  intro l
  cases l with
  | nil => simp [dedupAdj]
  | cons a rest => exact (dedupAdjGo_sublist rest a).cons₂ a

/-! ## CheckCenters characterization -/

theorem checkFail_not (hlen : centers.length = maxlen)
    (hscan : scanNanInf centers = none) (hnd : centers.Nodup)
    (hnorm : ∀ f, inorm = some f → ∀ v ∈ centers, ¬ f v = 0) :
    ¬ CheckFailCond maxlen inorm centers := by
  rintro (h | h | h | h | h)
  · exact h hlen
  · rcases h with ⟨v, hv, x, hx, hb⟩
    have := (scanVec_eq_none_iff.mp (scanNanInf_eq_none_iff.mp hscan v hv) x hx).1
    rw [hb] at this
    exact Bool.true_eq_false.mp this
  · rcases h with ⟨v, hv, x, hx, hb⟩
    have := (scanVec_eq_none_iff.mp (scanNanInf_eq_none_iff.mp hscan v hv) x hx).2
    rw [hb] at this
    exact Bool.true_eq_false.mp this
  · exact h hnd
  · rcases h with ⟨f, hf, v, hv, hz⟩
    exact hnorm f hf v hv hz

theorem checkCenters_error_iff (maxlen : ℕ) (inorm : Option (Vec → ℚ))
    (centers : List Vec) :
    (∃ e, checkCenters .vector maxlen inorm centers = .error e) ↔
      CheckFailCond maxlen inorm centers := by
  unfold checkCenters
  by_cases hlen : centers.length ≠ maxlen
  · rw [if_pos hlen]
    exact ⟨fun _ => Or.inl hlen, fun _ => ⟨.notEnoughCenters, rfl⟩⟩
  · rw [if_neg hlen]
    push_neg at hlen
    cases hscan : scanNanInf centers with
    | some e =>
      constructor
      · intro _
        rcases scanNanInf_ne_none (l := centers) (by simp [hscan]) with ⟨v, hv, x, hx, hb⟩
        rcases hb with hb | hb
        · exact Or.inr (Or.inl ⟨v, hv, x, hx, hb⟩)
        · exact Or.inr (Or.inr (Or.inl ⟨v, hv, x, hx, hb⟩))
      · intro _
        exact ⟨e, rfl⟩
    | none =>
      have hnf : ∀ v ∈ sortVecs centers, NFree v :=
        fun v hv => nfree_of_scan_none hscan v (mem_sortVecs.mp hv)
      by_cases hdup : adjDup (sortVecs centers) = true
      · rw [if_pos hdup]
        constructor
        · intro _
          refine Or.inr (Or.inr (Or.inr (Or.inl ?_)))
          exact fun hnd => not_nodup_of_adjDup hdup ((sortVecs_perm centers).nodup_iff.mpr hnd)
        · intro _
          exact ⟨.duplicateCenters, rfl⟩
      · rw [if_neg hdup]
        rw [Bool.not_eq_true] at hdup
        have hnd : centers.Nodup :=
          (sortVecs_perm centers).nodup_iff.mp
            (nodup_of_sorted_no_adjDup (sortVecs_sorted
              (fun v hv => nfree_of_scan_none hscan v hv)) hnf hdup)
        cases hin : inorm with
        | none =>
          constructor
          · rintro ⟨e, he⟩
            exact absurd he (by simp)
          · intro hc
            exact absurd hc (checkFail_not hlen hscan hnd (by simp [hin]))
        | some f =>
          by_cases hz : (sortVecs centers).any (fun v => decide (f v = 0)) = true
          · constructor
            · intro _
              rcases List.any_eq_true.mp hz with ⟨v, hv, hfv⟩
              exact Or.inr (Or.inr (Or.inr (Or.inr
                ⟨f, rfl, v, mem_sortVecs.mp hv, of_decide_eq_true hfv⟩)))
            · intro _
              exact ⟨.zeroNorm, if_pos hz⟩
          · constructor
            · rintro ⟨e, he⟩
              exact absurd ((if_neg hz).symm.trans he) (by simp)
            · intro hc
              refine absurd hc (checkFail_not hlen hscan hnd ?_)
              intro g hg v hv hgv
              have hgf : g = f := (Option.some.inj hg).symm
              subst hgf
              exact hz (List.any_eq_true.mpr ⟨v, mem_sortVecs.mpr hv, decide_eq_true hgv⟩)

theorem checkCenters_ok_facts {type : IvfflatType} {maxlen : ℕ}
    {inorm : Option (Vec → ℚ)} {centers sc : List Vec}
    (h : checkCenters type maxlen inorm centers = .ok sc) :
    sc = sortVecs centers ∧ scanNanInf centers = none := by
  unfold checkCenters at h
  by_cases hlen : centers.length ≠ maxlen
  · rw [if_pos hlen] at h
    exact absurd h (by simp)
  · rw [if_neg hlen] at h
    cases hscan : scanNanInf centers with
    | some e =>
      rw [hscan] at h
      exact absurd h (by simp)
    | none =>
      rw [hscan] at h
      cases type with
      | other => exact absurd h (by simp)
      | vector =>
        by_cases hdup : adjDup (sortVecs centers) = true
        · exact absurd ((if_pos hdup).symm.trans h) (by simp)
        · have h2 := (if_neg hdup).symm.trans h
          cases inorm with
          | none => exact ⟨(Except.ok.inj h2).symm, rfl⟩
          | some f =>
            by_cases hz : (sortVecs centers).any (fun v => decide (f v = 0)) = true
            · exact absurd ((if_pos hz).symm.trans h2) (by simp)
            · exact ⟨(Except.ok.inj ((if_neg hz).symm.trans h2)).symm, rfl⟩

theorem checkCenters_ok_sorted {type : IvfflatType} {maxlen : ℕ}
    {inorm : Option (Vec → ℚ)} {centers sc : List Vec}
    (h : checkCenters type maxlen inorm centers = .ok sc) :
    SortedB vecLeB sc := by
  rcases checkCenters_ok_facts h with ⟨hsc, hscan⟩
  rw [hsc]
  exact sortVecs_sorted (nfree_of_scan_none hscan)

/-! ## Array-update lemmas -/

theorem upd_same {α : Type} (f : ℕ → α) (i : ℕ) (v : α) : upd f i v i = v := by
  simp [upd]

theorem upd_other {α : Type} (f : ℕ → α) (i : ℕ) (v : α) {j : ℕ} (h : j ≠ i) :
    upd f i v j = f j := by
  simp [upd, h]

theorem upd2_same (f : ℕ → ℕ → ℚ) (i j : ℕ) (v : ℚ) : upd2 f i j v i j = v := by
  simp [upd2]

theorem upd2_other (f : ℕ → ℕ → ℚ) (i j : ℕ) (v : ℚ) {a b : ℕ}
    (h : ¬ (a = i ∧ b = j)) : upd2 f i j v a b = f a b := by
  simp only [upd2, if_neg h]

/-! ## InitCenters lemmas: the seeding pass leaves every lower-bound
entry equal to the true distance from its sample to its center -/

theorem initColumn_go (P : KParams) (i : ℕ) :
    ∀ (l : List ℕ) (a : InitSt × ℚ),
      ((l.foldl (initColStep P i) a).1.centers = a.1.centers ∧
        (l.foldl (initColStep P i) a).1.t = a.1.t) ∧
      (∀ x b, b ≠ i → (l.foldl (initColStep P i) a).1.lower x b = a.1.lower x b) ∧
      (∀ j, j ∉ l → (l.foldl (initColStep P i) a).1.lower j i = a.1.lower j i) ∧
      (∀ j, j ∈ l → (l.foldl (initColStep P i) a).1.lower j i =
        P.dist (P.samples j) (a.1.centers i)) := by
  intro l
  induction l with
  | nil =>
    intro a
    exact ⟨⟨rfl, rfl⟩, fun _ _ _ => rfl, fun _ _ => rfl,
      fun j hj => absurd hj (List.not_mem_nil j)⟩
  | cons x l ih =>
    intro a
    rcases ih (initColStep P i a x) with ⟨⟨hc, ht⟩, hoth, hunt, hcol⟩
    have hstepc : (initColStep P i a x).1.centers = a.1.centers := rfl
    have hstept : (initColStep P i a x).1.t = a.1.t := rfl
    refine ⟨⟨hc.trans hstepc, ht.trans hstept⟩, ?_, ?_, ?_⟩
    · intro y b hb
      rw [List.foldl_cons, hoth y b hb]
      exact upd2_other _ _ _ _ (fun hyb => hb hyb.2)
    · intro j hj
      have hjx : j ≠ x := fun h => hj (h ▸ List.mem_cons_self x l)
      have hjl : j ∉ l := fun h => hj (List.mem_cons_of_mem x h)
      rw [List.foldl_cons, hunt j hjl]
      exact upd2_other _ _ _ _ (fun hyb => hjx hyb.1)
    · intro j hj
      rw [List.foldl_cons]
      rcases List.mem_cons.mp hj with hj | hj
      · subst hj
        by_cases hjl : j ∈ l
        · rw [hcol j hjl, hstepc]
        · rw [hunt j hjl]
          exact upd2_same _ _ _ _
      · rw [hcol j hj, hstepc]

theorem initColumn_centers (P : KParams) (i : ℕ) (st : InitSt) :
    (initColumn P i st).1.centers = st.centers :=
  ((initColumn_go P i (List.range P.numSamples) (st, 0)).1).1

theorem initColumn_t (P : KParams) (i : ℕ) (st : InitSt) :
    (initColumn P i st).1.t = st.t :=
  ((initColumn_go P i (List.range P.numSamples) (st, 0)).1).2

theorem initColumn_lower_other (P : KParams) (i : ℕ) (st : InitSt) :
    ∀ x b, b ≠ i → (initColumn P i st).1.lower x b = st.lower x b :=
  (initColumn_go P i (List.range P.numSamples) (st, 0)).2.1

theorem initColumn_lower_col (P : KParams) (i : ℕ) (st : InitSt) :
    ∀ j, j < P.numSamples →
      (initColumn P i st).1.lower j i = P.dist (P.samples j) (st.centers i) :=
  fun j hj => (initColumn_go P i (List.range P.numSamples) (st, 0)).2.2.2 j
    (List.mem_range.mpr hj)

theorem initLoop_exact (P : KParams) :
    ∀ (fuel i : ℕ) (st : InitSt), i + fuel = P.numCenters →
      (∀ j, j < P.numSamples → ∀ k, k < i →
        st.lower j k = P.dist (P.samples j) (st.centers k)) →
      ∀ j, j < P.numSamples → ∀ k, k < P.numCenters →
        (initLoop P i fuel st).lower j k =
          P.dist (P.samples j) ((initLoop P i fuel st).centers k) := by
  intro fuel
  induction fuel with
  | zero =>
    intro i st hsum hpre j hj k hk
    exact hpre j hj k (by omega)
  | succ fuel ih =>
    intro i st hsum hpre j hj k hk
    have hcol : ∀ j, j < P.numSamples → ∀ k, k < i + 1 →
        (initColumn P i st).1.lower j k =
          P.dist (P.samples j) ((initColumn P i st).1.centers k) := by
      intro j hj k hk
      rw [initColumn_centers]
      by_cases hki : k = i
      · subst hki
        exact initColumn_lower_col P k st j hj
      · rw [initColumn_lower_other P i st j k hki]
        exact hpre j hj k (by omega)
    by_cases hstop : i + 1 = P.numCenters
    · have : initLoop P i (fuel + 1) st = (initColumn P i st).1 := by
        rw [initLoop, if_pos hstop]
      rw [this]
      exact hcol j hj k (by omega)
    · have hrec : initLoop P i (fuel + 1) st =
          initLoop P (i + 1) fuel
            { (initColumn P i st).1 with
              centers := upd (initColumn P i st).1.centers (i + 1)
                (P.samples (selectJ (initColumn P i st).1.weight P.numSamples
                  ((initColumn P i st).2 * P.rngD (initColumn P i st).1.t))),
              t := (initColumn P i st).1.t + 1 } := by
        rw [initLoop, if_neg hstop]
      rw [hrec]
      refine ih (i + 1) _ (by omega) ?_ j hj k hk
      intro j2 hj2 k2 hk2
      have hk2i : k2 ≠ i + 1 := by omega
      show (initColumn P i st).1.lower j2 k2 =
        P.dist (P.samples j2) (upd (initColumn P i st).1.centers (i + 1) _ k2)
      rw [upd_other _ _ _ hk2i]
      have := hcol j2 hj2 k2 (by omega)
      rwa [initColumn_centers] at this ⊢

theorem initCenters_lower_exact (P : KParams) (rngI t0 : ℕ) :
    ∀ j, j < P.numSamples → ∀ k, k < P.numCenters →
      (initCenters P rngI t0).lower j k =
        P.dist (P.samples j) ((initCenters P rngI t0).centers k) := by
  intro j hj k hk
  exact initLoop_exact P P.numCenters 0 _ (by omega)
    (fun _ _ k2 hk2 => absurd hk2 (by omega)) j hj k hk

/-! ## Initial assignment lemmas -/

theorem assign_fold_le (lower : ℕ → ℕ → ℚ) (j : ℕ) :
    ∀ (l : List ℕ) (a : ℚ × ℕ),
      (l.foldl (assignStep lower j) a).1 ≤ a.1 ∧
      ∀ k ∈ l, (l.foldl (assignStep lower j) a).1 ≤ lower j k := by
  intro l
  induction l with
  | nil => intro a; exact ⟨le_refl _, fun k hk => absurd hk (List.not_mem_nil k)⟩
  | cons x l ih =>
    intro a
    rcases ih (assignStep lower j a x) with ⟨h1, h2⟩
    have hstep : (assignStep lower j a x).1 ≤ a.1 ∧
        (assignStep lower j a x).1 ≤ lower j x := by
      unfold assignStep
      by_cases h : lower j x < a.1
      · rw [if_pos h]
        exact ⟨le_of_lt h, le_refl _⟩
      · rw [if_neg h]
        exact ⟨le_refl _, le_of_not_lt h⟩
    refine ⟨le_trans h1 hstep.1, ?_⟩
    intro k hk
    rcases List.mem_cons.mp hk with hk | hk
    · subst hk
      exact le_trans h1 hstep.2
    · exact h2 k hk

theorem assign_fold_cases (lower : ℕ → ℕ → ℚ) (j : ℕ) :
    ∀ (l : List ℕ) (a : ℚ × ℕ),
      l.foldl (assignStep lower j) a = a ∨
      ∃ c ∈ l, l.foldl (assignStep lower j) a = (lower j c, c) := by
  intro l
  induction l with
  | nil => intro a; exact Or.inl rfl
  | cons x l ih =>
    intro a
    rcases ih (assignStep lower j a x) with h | ⟨c, hc, h⟩
    · rw [List.foldl_cons, h]
      unfold assignStep
      by_cases hx : lower j x < a.1
      · rw [if_pos hx]
        exact Or.inr ⟨x, List.mem_cons_self x l, rfl⟩
      · rw [if_neg hx]
        exact Or.inl rfl
    · rw [List.foldl_cons, h]
      exact Or.inr ⟨c, List.mem_cons_of_mem x hc, rfl⟩

theorem initAssign_spec (P : KParams) (lower : ℕ → ℕ → ℚ) (j : ℕ)
    (hk : 1 ≤ P.numCenters)
    (hlt : ∀ k, k < P.numCenters → lower j k < fltMax) :
    ∃ c, c < P.numCenters ∧ initAssign P lower j = (lower j c, c) := by
  rcases assign_fold_cases lower j (List.range P.numCenters) (fltMax, 0) with h | ⟨c, hc, h⟩
  · exfalso
    have hle := (assign_fold_le lower j (List.range P.numCenters) (fltMax, 0)).2 0
      (List.mem_range.mpr (by omega))
    rw [h] at hle
    exact absurd (lt_of_le_of_lt hle (hlt 0 (by omega))) (lt_irrefl _)
  · exact ⟨c, List.mem_range.mp hc, h⟩

/-! ## Step 3 preserves the bound invariant: every bound it writes is
an exact distance to the current centers -/

theorem step3a_inv {P : KParams} {centers : ℕ → Vec} {s : Step3St} {j : ℕ}
    (h : Step3Inv P centers s) : Step3Inv P centers (step3a P centers j s) := by
  obtain ⟨hcl, hlow, hup⟩ := h
  refine ⟨hcl, ?_, ?_⟩
  · intro a ha b hb
    show upd2 s.lower j (s.closest j) _ a b ≤ _
    by_cases hab : a = j ∧ b = s.closest j
    · obtain ⟨ha1, hb1⟩ := hab
      subst ha1
      subst hb1
      rw [upd2_same]
    · rw [upd2_other _ _ _ _ hab]
      exact hlow a ha b hb
  · intro a ha
    show P.dist (P.samples a) (centers (s.closest a)) ≤ upd s.upper j _ a
    by_cases haj : a = j
    · subst haj
      rw [upd_same]
    · rw [upd_other _ _ _ haj]
      exact hup a ha

theorem step3b_inv {P : KParams} {centers : ℕ → Vec} {hcd : ℕ → ℕ → ℚ}
    {j k : ℕ} (hk : k < P.numCenters) {s1 : Step3St}
    (h : Step3Inv P centers s1) : Step3Inv P centers (step3b P centers hcd j k s1) := by
  obtain ⟨hcl, hlow, hup⟩ := h
  unfold step3b
  by_cases hc1 : s1.lower j k < s1.upper j ∨ hcd (s1.closest j) k < s1.upper j
  · rw [if_pos hc1]
    by_cases hc2 : P.dist (P.samples j) (centers k) < s1.upper j
    · rw [if_pos hc2]
      refine ⟨?_, ?_, ?_⟩
      · intro a ha
        show upd s1.closest j k a < P.numCenters
        by_cases haj : a = j
        · subst haj; rw [upd_same]; exact hk
        · rw [upd_other _ _ _ haj]; exact hcl a ha
      · intro a ha b hb
        show upd2 s1.lower j k _ a b ≤ _
        by_cases hab : a = j ∧ b = k
        · obtain ⟨ha1, hb1⟩ := hab
          subst ha1
          subst hb1
          rw [upd2_same]
        · rw [upd2_other _ _ _ _ hab]
          exact hlow a ha b hb
      · intro a ha
        show P.dist (P.samples a) (centers (upd s1.closest j k a)) ≤
          upd s1.upper j _ a
        by_cases haj : a = j
        · subst haj
          rw [upd_same, upd_same]
        · rw [upd_other _ _ _ haj, upd_other _ _ _ haj]
          exact hup a ha
    · rw [if_neg hc2]
      refine ⟨hcl, ?_, hup⟩
      intro a ha b hb
      show upd2 s1.lower j k _ a b ≤ _
      by_cases hab : a = j ∧ b = k
      · obtain ⟨ha1, hb1⟩ := hab
        subst ha1
        subst hb1
        rw [upd2_same]
      · rw [upd2_other _ _ _ _ hab]
        exact hlow a ha b hb
  · rw [if_neg hc1]
    exact ⟨hcl, hlow, hup⟩

theorem step3Inner_inv {P : KParams} {centers : ℕ → Vec} {hcd : ℕ → ℕ → ℚ}
    {j k : ℕ} (hk : k < P.numCenters) {st : Step3St × Bool}
    (h : Step3Inv P centers st.1) :
    Step3Inv P centers (step3Inner P centers hcd j st k).1 := by
  unfold step3Inner
  by_cases h1 : k = st.1.closest j
  · rw [if_pos h1]; exact h
  · rw [if_neg h1]
    by_cases h2 : st.1.upper j ≤ st.1.lower j k
    · rw [if_pos h2]; exact h
    · rw [if_neg h2]
      by_cases h3 : st.1.upper j ≤ hcd (st.1.closest j) k
      · rw [if_pos h3]; exact h
      · rw [if_neg h3]
        refine step3b_inv hk ?_
        by_cases hr : st.2 = true
        · rw [if_pos hr]; exact step3a_inv h
        · rw [if_neg hr]; exact h

theorem step3Sample_inv {P : KParams} {centers : ℕ → Vec} {hcd : ℕ → ℕ → ℚ}
    {sArr : ℕ → ℚ} {rjreset : Bool} {s : Step3St} {j : ℕ}
    (h : Step3Inv P centers s) :
    Step3Inv P centers (step3Sample P centers hcd sArr rjreset s j) := by
  unfold step3Sample
  by_cases hskip : s.upper j ≤ sArr (s.closest j)
  · rw [if_pos hskip]; exact h
  · rw [if_neg hskip]
    exact foldl_inv (step3Inner P centers hcd j)
      (fun st => Step3Inv P centers st.1) (List.range P.numCenters) (s, rjreset)
      (fun b a ha hb => step3Inner_inv (List.mem_range.mp ha) hb) h

theorem step3_inv {P : KParams} {centers : ℕ → Vec} {rjreset : Bool}
    {s : Step3St} (h : Step3Inv P centers s) :
    Step3Inv P centers (step3 P centers rjreset s) :=
  foldl_inv _ (Step3Inv P centers) (List.range P.numSamples) s
    (fun _ _ _ hb => step3Sample_inv hb) h

/-! ## Steps 5 to 7 re-establish the bound invariant for the moved
centers, by the triangle inequality -/

theorem elkanCommit_inv {P : KParams}
    (hsym : ∀ u v, P.dist u v = P.dist v u)
    (htri : ∀ u v w, P.dist u w ≤ P.dist u v + P.dist v w)
    (hnn : ∀ u v, 0 ≤ P.dist u v)
    {centers : ℕ → Vec} {s3 : Step3St} {t : ℕ}
    (h : Step3Inv P centers s3) :
    ElkanInv P (elkanCommit P centers s3 t) := by
  obtain ⟨hcl, hlow, hup⟩ := h
  refine ⟨?_, ?_, ?_⟩
  · intro j hj
    exact hcl j hj
  · intro j hj k hk
    show step5lower P (newcdistOf P centers (newCentersStep4 P s3.closest t).1) s3.lower j k ≤
      P.dist (P.samples j) (step7centers P centers (newCentersStep4 P s3.closest t).1 k)
    set nc := (newCentersStep4 P s3.closest t).1 with hnc
    unfold step5lower step7centers
    rw [if_pos ⟨hj, hk⟩, if_pos hk]
    have h1 : s3.lower j k ≤ P.dist (P.samples j) (centers k) := hlow j hj k hk
    have h2 : P.dist (P.samples j) (centers k) ≤
        P.dist (P.samples j) (nc k) + P.dist (nc k) (centers k) :=
      htri _ _ _
    have h3 : newcdistOf P centers nc k = P.dist (nc k) (centers k) := by
      unfold newcdistOf
      exact hsym _ _
    by_cases hneg : s3.lower j k - newcdistOf P centers nc k < 0
    · rw [if_pos hneg]
      exact hnn _ _
    · rw [if_neg hneg]
      rw [h3]
      linarith
  · intro j hj
    show P.dist (P.samples j)
        (step7centers P centers (newCentersStep4 P s3.closest t).1 (s3.closest j)) ≤
      step6upper P (newcdistOf P centers (newCentersStep4 P s3.closest t).1)
        s3.closest s3.upper j
    set nc := (newCentersStep4 P s3.closest t).1 with hnc
    unfold step6upper step7centers
    rw [if_pos hj, if_pos (hcl j hj)]
    have h1 : P.dist (P.samples j) (nc (s3.closest j)) ≤
        P.dist (P.samples j) (centers (s3.closest j)) +
          P.dist (centers (s3.closest j)) (nc (s3.closest j)) :=
      htri _ _ _
    have h2 : P.dist (P.samples j) (centers (s3.closest j)) ≤ s3.upper j :=
      hup j hj
    have h3 : newcdistOf P centers nc (s3.closest j) =
        P.dist (centers (s3.closest j)) (nc (s3.closest j)) := rfl
    rw [h3]
    linarith

theorem elkanIter_inv {P : KParams}
    (hsym : ∀ u v, P.dist u v = P.dist v u)
    (htri : ∀ u v w, P.dist u w ≤ P.dist u v + P.dist v w)
    (hnn : ∀ u v, 0 ≤ P.dist u v)
    {st : EState} (h : ElkanInv P st) (n : ℕ) :
    ElkanInv P (elkanIter P st n).1 :=
  elkanCommit_inv hsym htri hnn (step3_inv h)

/-! ## The invariant holds on entry and at every iteration boundary -/

theorem elkanInitState_inv {P : KParams} (rngI : ℕ)
    (hbd : ∀ u v, P.dist u v < fltMax)
    (hk : 1 ≤ P.numCenters) :
    ElkanInv P (elkanInitState P rngI) := by
  have hexact := initCenters_lower_exact P rngI 0
  have hassign : ∀ j, j < P.numSamples →
      ∃ c, c < P.numCenters ∧
        initAssign P (initCenters P rngI 0).lower j =
          ((initCenters P rngI 0).lower j c, c) := by
    intro j hj
    refine initAssign_spec P _ j hk ?_
    intro k hkc
    rw [hexact j hj k hkc]
    exact hbd _ _
  refine ⟨?_, ?_, ?_⟩
  · intro j hj
    obtain ⟨c, hc, he⟩ := hassign j hj
    show (initAssign P (initCenters P rngI 0).lower j).2 < P.numCenters
    rw [he]
    exact hc
  · intro j hj k hk2
    show (initCenters P rngI 0).lower j k ≤
      P.dist (P.samples j) ((initCenters P rngI 0).centers k)
    exact le_of_eq (hexact j hj k hk2)
  · intro j hj
    obtain ⟨c, hc, he⟩ := hassign j hj
    show P.dist (P.samples j)
        ((initCenters P rngI 0).centers
          ((initAssign P (initCenters P rngI 0).lower j).2)) ≤
      (initAssign P (initCenters P rngI 0).lower j).1
    rw [he]
    exact le_of_eq (hexact j hj c hc).symm

theorem elkanStateAt_inv {P : KParams} (rngI : ℕ)
    (hsym : ∀ u v, P.dist u v = P.dist v u)
    (htri : ∀ u v w, P.dist u w ≤ P.dist u v + P.dist v w)
    (hnn : ∀ u v, 0 ≤ P.dist u v)
    (hbd : ∀ u v, P.dist u v < fltMax)
    (hk : 1 ≤ P.numCenters) :
    ∀ n, ElkanInv P (elkanStateAt P rngI n) := by
  intro n
  induction n with
  | zero => exact elkanInitState_inv rngI hbd hk
  | succ n ih => exact elkanIter_inv hsym htri hnn ih n

/-! ## Counting the outer iterations of the Elkan loop -/

theorem elkanLoop_spec (P : KParams) (rngI : ℕ) :
    ∀ (fuel i : ℕ),
      (elkanLoop P (elkanStateAt P rngI i) i fuel).2 ≤ fuel ∧
      (fuel ≠ 0 → 1 ≤ (elkanLoop P (elkanStateAt P rngI i) i fuel).2) ∧
      ((elkanLoop P (elkanStateAt P rngI i) i fuel).2 < fuel →
        elkanChangesAt P rngI (i + (elkanLoop P (elkanStateAt P rngI i) i fuel).2 - 1) = 0 ∧
        i + (elkanLoop P (elkanStateAt P rngI i) i fuel).2 - 1 ≠ 0) ∧
      (∀ m, i ≤ m → m + 1 < i + (elkanLoop P (elkanStateAt P rngI i) i fuel).2 →
        ¬ (elkanChangesAt P rngI m = 0 ∧ m ≠ 0)) ∧
      (i = 0 → 2 ≤ fuel → 2 ≤ (elkanLoop P (elkanStateAt P rngI i) i fuel).2) := by
  intro fuel
  induction fuel with
  | zero =>
    intro i
    refine ⟨le_refl 0, fun h0 => absurd rfl h0, fun h0 => absurd h0 (by omega),
      ?_, fun _ h0 => absurd h0 (by omega)⟩
    intro m hm hm2
    have h20 : (elkanLoop P (elkanStateAt P rngI i) i 0).2 = 0 := rfl
    omega
  | succ fuel ih =>
    intro i
    by_cases hbrk : elkanChangesAt P rngI i = 0 ∧ i ≠ 0
    · have hbrk2 : (elkanIter P (elkanStateAt P rngI i) i).2 = 0 ∧ i ≠ 0 := hbrk
      have hres : elkanLoop P (elkanStateAt P rngI i) i (fuel + 1) =
          (elkanStateAt P rngI (i + 1), 1) := by
        rw [elkanLoop, if_pos hbrk2]
        rfl
      rw [hres]
      refine ⟨by omega, fun _ => le_refl 1, ?_, ?_, ?_⟩
      · intro _
        have h1 : i + 1 - 1 = i := by omega
        rw [h1]
        exact hbrk
      · intro m hm hm2
        omega
      · intro h0 _
        exact absurd h0 hbrk.2
    · have hbrk2 : ¬ ((elkanIter P (elkanStateAt P rngI i) i).2 = 0 ∧ i ≠ 0) := hbrk
      have hres : elkanLoop P (elkanStateAt P rngI i) i (fuel + 1) =
          ((elkanLoop P (elkanStateAt P rngI (i + 1)) (i + 1) fuel).1,
           (elkanLoop P (elkanStateAt P rngI (i + 1)) (i + 1) fuel).2 + 1) := by
        rw [elkanLoop, if_neg hbrk2]
        rfl
      rw [hres]
      obtain ⟨ih1, ih2, ih3, ih4, _⟩ := ih (i + 1)
      refine ⟨by omega, fun _ => by omega, ?_, ?_, ?_⟩
      · intro hlt
        have hlt2 : (elkanLoop P (elkanStateAt P rngI (i + 1)) (i + 1) fuel).2 < fuel := by
          omega
        obtain ⟨hz, hnz⟩ := ih3 hlt2
        constructor
        · rw [show i + ((elkanLoop P (elkanStateAt P rngI (i + 1)) (i + 1) fuel).2 + 1) - 1 =
            i + 1 + (elkanLoop P (elkanStateAt P rngI (i + 1)) (i + 1) fuel).2 - 1 from by omega]
          exact hz
        · omega
      · intro m hm hm2
        by_cases hmi : m = i
        · subst hmi
          exact hbrk
        · exact ih4 m (by omega) (by omega)
      · intro h0 h2
        have h1 : 1 ≤ (elkanLoop P (elkanStateAt P rngI (i + 1)) (i + 1) fuel).2 :=
          ih2 (by omega)
        omega

/-! ## Driver characterization -/

theorem ivfflatKmeans_ok_cases {type : IvfflatType} {samples : List Vec}
    {maxlen dims : ℕ} {dist : Vec → Vec → ℚ} {knorm inorm : Option (Vec → ℚ)}
    {rngI : ℕ} {rngD : ℕ → ℚ} {s2 cs : List Vec}
    (h : ivfflatKmeans type samples maxlen dims dist knorm inorm rngI rngD = .ok (s2, cs)) :
    (∃ c0, checkCenters type maxlen inorm c0 = Except.ok cs) ∧
      ((samples.length ≤ maxlen ∧ (s2 = sortVecs samples ∨ s2 = samples)) ∨
       (¬ samples.length ≤ maxlen ∧ s2 = samples)) := by
  unfold ivfflatKmeans at h
  by_cases hq : samples.length ≤ maxlen
  · rw [if_pos hq] at h
    cases type with
    | vector =>
      simp only [quickCenters] at h
      cases hc : checkCenters .vector maxlen inorm
          (quickFill maxlen dims knorm rngD 0 (dedupAdj (sortVecs samples))) with
      | error e =>
        rw [hc] at h
        exact absurd h (by simp)
      | ok sc =>
        rw [hc] at h
        simp only [Except.ok.injEq, Prod.mk.injEq] at h
        obtain ⟨hs, hcs⟩ := h
        exact ⟨⟨_, by rw [hc, hcs]⟩, Or.inl ⟨hq, Or.inl hs.symm⟩⟩
    | other =>
      simp only [quickCenters] at h
      by_cases hz : samples.length = 0 ∧ maxlen = 0
      · rw [if_pos hz] at h
        cases hc : checkCenters .other maxlen inorm ([] : List Vec) with
        | error e =>
          simp only [hc] at h
          exact absurd h (by simp)
        | ok sc =>
          simp only [hc, Except.ok.injEq, Prod.mk.injEq] at h
          obtain ⟨hs, hcs⟩ := h
          exact ⟨⟨_, by rw [hc, hcs]⟩, Or.inl ⟨hq, Or.inr hs.symm⟩⟩
      · rw [if_neg hz] at h
        exact absurd h (by simp)
  · rw [if_neg hq] at h
    cases he : elkanKmeans
        ⟨samples.length, maxlen, dims, fun j => samples.getD j [], dist, knorm, rngD⟩ rngI with
    | error e =>
      simp only [he] at h
      exact absurd h (by simp)
    | ok cs0 =>
      simp only [he] at h
      cases hc : checkCenters type maxlen inorm cs0 with
      | error e =>
        simp only [hc] at h
        exact absurd h (by simp)
      | ok sc =>
        simp only [hc, Except.ok.injEq, Prod.mk.injEq] at h
        obtain ⟨hs, hcs⟩ := h
        exact ⟨⟨cs0, by rw [hc, hcs]⟩, Or.inr ⟨hq, hs.symm⟩⟩

theorem synthVec_getD (dims : ℕ) (rngD : ℕ → ℚ) (t i : ℕ) (hi : i < dims) :
    (synthVec dims rngD t).getD i FVal.nan = FVal.val (rngD (t + i)) := by
  unfold synthVec
  rw [List.getD_eq_getElem _ _ (by simpa using hi)]
  simp

/-! # Claim theorems -/

/-- C1: Throughout every iteration of ElkanKmeans, under the spec
assumptions on the configured distance function (a symmetric
nonnegative function obeying the triangle inequality, with values in
float range) and at least one center, for every sample index j and
center index k the lower bound is at most the true distance from
sample j to center k, and the upper bound of j is at least the true
distance from sample j to its currently assigned center.  The bounds
hold on entry (InitCenters leaves them tight) and are re-established
after Steps 5 and 6 widen them by the center-shift distances: the
induction step is one full iteration ending with Steps 5 to 7. -/
theorem claim_c1_elkan_bounds_sound (P : KParams) (rngI : ℕ)
    (hsym : ∀ u v, P.dist u v = P.dist v u)
    (htri : ∀ u v w, P.dist u w ≤ P.dist u v + P.dist v w)
    (hnn : ∀ u v, 0 ≤ P.dist u v)
    (hbd : ∀ u v, P.dist u v < fltMax)
    (hk : 1 ≤ P.numCenters) :
    ∀ n, ElkanInv P (elkanStateAt P rngI n) :=
  elkanStateAt_inv rngI hsym htri hnn hbd hk

/-- Witness for C1 at a concrete instance: one sample, one center and
the identically-zero distance function (which satisfies every metric
law), after one full iteration. -/
theorem claim_c1_witness :
    ElkanInv ⟨1, 1, 1, (fun _ => [FVal.val 0]), (fun _ _ => 0), none, fun _ => 0⟩
      (elkanStateAt ⟨1, 1, 1, (fun _ => [FVal.val 0]), (fun _ _ => 0), none, fun _ => 0⟩ 0 1) :=
  claim_c1_elkan_bounds_sound _ 0 (fun _ _ => rfl) (fun _ _ _ => by norm_num)
    (fun _ _ => le_refl 0) (fun _ _ => by norm_num [fltMax]) (le_refl 1) 1

/-- C2 counterexample: the claim that the samples array is unchanged
on return fails on the quick path, which sorts the samples array in
place: training on samples [[1],[0]] with capacity 2 succeeds and
returns the samples array reordered to [[0],[1]]. -/
theorem claim_c2_counterexample :
    ivfflatKmeans .vector [[FVal.val 1], [FVal.val 0]] 2 1 (fun _ _ => 0)
        none none 0 (fun _ => 0) =
      .ok ([[FVal.val 0], [FVal.val 1]], [[FVal.val 0], [FVal.val 1]]) ∧
    ([[FVal.val 0], [FVal.val 1]] : List Vec) ≠ [[FVal.val 1], [FVal.val 0]] :=
  ⟨by rfl, by decide⟩

/-- C2 amended: the driver never changes the multiset of samples: on
every successful return the samples array is a permutation of its
input (the QuickCenters path sorts it in place), and on the
ElkanKmeans path (more samples than capacity) the samples array is
returned exactly unchanged. -/
theorem claim_c2_amended (type : IvfflatType) (samples : List Vec)
    (maxlen dims : ℕ) (dist : Vec → Vec → ℚ) (knorm inorm : Option (Vec → ℚ))
    (rngI : ℕ) (rngD : ℕ → ℚ) (s2 cs : List Vec)
    (h : ivfflatKmeans type samples maxlen dims dist knorm inorm rngI rngD = .ok (s2, cs)) :
    s2.Perm samples ∧ (maxlen < samples.length → s2 = samples) := by
  obtain ⟨_, hcase⟩ := ivfflatKmeans_ok_cases h
  rcases hcase with ⟨hq, hs | hs⟩ | ⟨hq, hs⟩
  · rw [hs]
    exact ⟨sortVecs_perm samples, fun hlt => absurd hq (by omega)⟩
  · rw [hs]
    exact ⟨List.Perm.refl samples, fun _ => rfl⟩
  · rw [hs]
    exact ⟨List.Perm.refl samples, fun _ => rfl⟩

/-- Witness for the amended C2 on the quick path: two samples,
capacity 2, the returned samples array is a permutation (the sorted
order) of the input. -/
theorem claim_c2_amended_witness :
    ([[FVal.val 0], [FVal.val 1]] : List Vec).Perm [[FVal.val 1], [FVal.val 0]] ∧
      (2 < ([[FVal.val 1], [FVal.val 0]] : List Vec).length →
        ([[FVal.val 0], [FVal.val 1]] : List Vec) = [[FVal.val 1], [FVal.val 0]]) :=
  claim_c2_amended .vector [[FVal.val 1], [FVal.val 0]] 2 1
    (fun _ _ => 0) none none 0 (fun _ => 0)
    [[FVal.val 0], [FVal.val 1]] [[FVal.val 0], [FVal.val 1]] (by rfl)

/-- C3: the claim says ElkanKmeans fails with an indexing-overflow
error whenever numCenters squared exceeds INT_MAX, but the guard as
written squares numCenters in 32-bit int arithmetic before comparing
with INT_MAX, and a wrapped 32-bit value can never exceed INT_MAX: the
guard is identically false.  At numCenters = 46341 the mathematical
square already exceeds INT_MAX yet the guard does not fire, so no
error is raised; this contradicts the comment in the source
(Ensure indexing does not overflow), so the code, not the claim, is
wrong. -/
theorem claim_c3_overflow_guard_never_fires :
    (∀ n : ℤ, wrap32 (n * n) ≤ intMax) ∧
    overflowGuard 46341 = false ∧
    intMax < (46341 : ℤ) * 46341 := by
  refine ⟨?_, by decide, by decide⟩
  intro n
  unfold wrap32 intMax
  omega

/-- C4: On exit from InitCenters, every lower-bound entry (j,k) with j
a sample index and k a center index equals the exact distance from
sample j to center k (each center is never moved after it is chosen,
so the value at the moment its column was computed is also the value
on exit); in particular the final pass populates the whole last
column even though no further center is drawn after it. -/
theorem claim_c4_initCenters_lower_exact (P : KParams) (rngI t0 : ℕ) :
    ∀ j, j < P.numSamples → ∀ k, k < P.numCenters →
      (initCenters P rngI t0).lower j k =
        P.dist (P.samples j) ((initCenters P rngI t0).centers k) :=
  initCenters_lower_exact P rngI t0

/-- Witness for C4 at a concrete instance: two samples and two centers
(so the populated column k = 1 is the last column), with the constant
distance function 1. -/
theorem claim_c4_witness :
    (initCenters ⟨2, 2, 1, (fun j => [FVal.val (j : ℚ)]), (fun _ _ => 1), none,
        fun _ => 0⟩ 0 0).lower 1 1 = (1 : ℚ) :=
  claim_c4_initCenters_lower_exact
    ⟨2, 2, 1, (fun j => [FVal.val (j : ℚ)]), (fun _ _ => 1), none, fun _ => 0⟩ 0 0
    1 (by decide) 1 (by decide)

/-- C5: the ElkanKmeans outer loop executes at least 2 and at most 500
iterations; when it stops before exhausting the 500 allowed
iterations, the last executed iteration ended with zero assignment
changes and its index is not 0 (so iteration 0 never terminates the
loop), and no earlier iteration satisfied that termination test. -/
theorem claim_c5_loop_termination (P : KParams) (rngI : ℕ) :
    2 ≤ elkanIterCount P rngI ∧
    elkanIterCount P rngI ≤ 500 ∧
    (elkanIterCount P rngI < 500 →
      elkanChangesAt P rngI (elkanIterCount P rngI - 1) = 0 ∧
      elkanIterCount P rngI - 1 ≠ 0) ∧
    (∀ m, m + 1 < elkanIterCount P rngI →
      ¬ (elkanChangesAt P rngI m = 0 ∧ m ≠ 0)) := by
  obtain ⟨h1, h2, h3, h4, h5⟩ := elkanLoop_spec P rngI 500 0
  have he : elkanIterCount P rngI = (elkanLoop P (elkanStateAt P rngI 0) 0 500).2 := rfl
  rw [he]
  simp only [Nat.zero_add] at h3 h4
  exact ⟨h5 rfl (by omega), h1, h3, fun m hm => h4 m (by omega) hm⟩

/-- Witness for C5 at a concrete instance: two samples, one center,
zero distance; the loop runs iteration 0, then iteration 1 sees zero
changes and stops, so exactly 2 iterations execute. -/
theorem claim_c5_witness :
    2 ≤ elkanIterCount ⟨2, 1, 1, (fun _ => [FVal.val 0]), (fun _ _ => 0), none,
        fun _ => 0⟩ 0 ∧
    elkanIterCount ⟨2, 1, 1, (fun _ => [FVal.val 0]), (fun _ _ => 0), none,
        fun _ => 0⟩ 0 ≤ 500 ∧
    (elkanIterCount ⟨2, 1, 1, (fun _ => [FVal.val 0]), (fun _ _ => 0), none,
        fun _ => 0⟩ 0 < 500 →
      elkanChangesAt ⟨2, 1, 1, (fun _ => [FVal.val 0]), (fun _ _ => 0), none,
        fun _ => 0⟩ 0 (elkanIterCount ⟨2, 1, 1, (fun _ => [FVal.val 0]), (fun _ _ => 0), none,
        fun _ => 0⟩ 0 - 1) = 0 ∧
      elkanIterCount ⟨2, 1, 1, (fun _ => [FVal.val 0]), (fun _ _ => 0), none,
        fun _ => 0⟩ 0 - 1 ≠ 0) ∧
    (∀ m, m + 1 < elkanIterCount ⟨2, 1, 1, (fun _ => [FVal.val 0]), (fun _ _ => 0), none,
        fun _ => 0⟩ 0 →
      ¬ (elkanChangesAt ⟨2, 1, 1, (fun _ => [FVal.val 0]), (fun _ _ => 0), none,
        fun _ => 0⟩ 0 m = 0 ∧ m ≠ 0)) :=
  claim_c5_loop_termination ⟨2, 1, 1, (fun _ => [FVal.val 0]), (fun _ _ => 0), none,
    fun _ => 0⟩ 0

/-- C6: the driver runs QuickCenters exactly when the sample count is
at most the centers capacity and ElkanKmeans otherwise, and in both
cases the resulting centers are passed to CheckCenters. -/
theorem claim_c6_driver_dispatch (type : IvfflatType) (samples : List Vec)
    (maxlen dims : ℕ) (dist : Vec → Vec → ℚ) (knorm inorm : Option (Vec → ℚ))
    (rngI : ℕ) (rngD : ℕ → ℚ) :
    (samples.length ≤ maxlen →
      ivfflatKmeans type samples maxlen dims dist knorm inorm rngI rngD =
        match quickCenters type samples maxlen dims knorm rngD 0 with
        | .error e => .error e
        | .ok r =>
          match checkCenters type maxlen inorm r.2.1 with
          | .error e => .error e
          | .ok sc => .ok (r.1, sc)) ∧
    (¬ samples.length ≤ maxlen →
      ivfflatKmeans type samples maxlen dims dist knorm inorm rngI rngD =
        match elkanKmeans ⟨samples.length, maxlen, dims, fun j => samples.getD j [],
            dist, knorm, rngD⟩ rngI with
        | .error e => .error e
        | .ok cs =>
          match checkCenters type maxlen inorm cs with
          | .error e => .error e
          | .ok sc => .ok (samples, sc)) := by
  constructor
  · intro hq
    unfold ivfflatKmeans
    rw [if_pos hq]
  · intro hq
    unfold ivfflatKmeans
    rw [if_neg hq]

/-- Witness for C6: the quick branch is taken at a one-sample input
with capacity 1. -/
theorem claim_c6_witness :
    ivfflatKmeans .vector [[FVal.val 0]] 1 1 (fun _ _ => 0) none none 0 (fun _ => 0) =
      match quickCenters .vector [[FVal.val 0]] 1 1 none (fun _ => 0) 0 with
      | .error e => .error e
      | .ok r =>
        match checkCenters .vector 1 none r.2.1 with
        | .error e => .error e
        | .ok sc => .ok (r.1, sc) :=
  (claim_c6_driver_dispatch .vector [[FVal.val 0]] 1 1 (fun _ _ => 0) none none 0
    (fun _ => 0)).1 (by decide)

/-- C7: QuickCenters on a sample set that fits the capacity (with
NaN-free samples and a RandomDouble stream ranging over the interval
from 0 inclusive to 1 exclusive): it succeeds; every sample value
appears among the returned centers; the centers begin with the
deduplicated sorted samples in ascending lexicographic order; and the
remainder is filled up to capacity with synthetic vectors whose
pre-normalization coordinates lie in that interval, each passed
through the norm adapter exactly when the k-means norm function is
configured (a zero-norm synthetic vector is left unnormalized by the
adapter, as the spec fixes). -/
theorem claim_c7_quick_path (samples : List Vec) (maxlen dims : ℕ)
    (knorm : Option (Vec → ℚ)) (rngD : ℕ → ℚ) (t : ℕ)
    (hn : samples.length ≤ maxlen)
    (hf : ∀ v ∈ samples, NFree v)
    (hr : ∀ n, 0 ≤ rngD n ∧ rngD n < 1) :
    ∃ cs t2, quickCenters .vector samples maxlen dims knorm rngD t =
        .ok (sortVecs samples, cs, t2) ∧
      (∀ v ∈ samples, v ∈ cs) ∧
      cs.length = maxlen ∧
      cs = dedupAdj (sortVecs samples) ++
        (List.range (maxlen - (dedupAdj (sortVecs samples)).length)).map
          (fun m => applyNormOpt knorm (synthVec dims rngD (t + m * dims))) ∧
      SortedB vecLeB (dedupAdj (sortVecs samples)) ∧
      (∀ m, m < maxlen - (dedupAdj (sortVecs samples)).length →
        ∀ i, i < dims →
          ∃ q, (synthVec dims rngD (t + m * dims)).getD i FVal.nan = FVal.val q ∧
            0 ≤ q ∧ q < 1) := by
  have hlen : (dedupAdj (sortVecs samples)).length ≤ maxlen := by
    have h1 : (dedupAdj (sortVecs samples)).length ≤ (sortVecs samples).length :=
      (dedupAdj_sublist _).length_le
    have h2 : (sortVecs samples).length = samples.length :=
      (sortVecs_perm samples).length_eq
    omega
  refine ⟨quickFill maxlen dims knorm rngD t (dedupAdj (sortVecs samples)),
    t + (maxlen - (dedupAdj (sortVecs samples)).length) * dims, rfl, ?_, ?_, rfl, ?_, ?_⟩
  · intro v hv
    exact List.mem_append_left _ (mem_dedupAdj (mem_sortVecs.mpr hv))
  · unfold quickFill
    rw [List.length_append, List.length_map, List.length_range]
    omega
  · exact (sortVecs_sorted hf).sublist (dedupAdj_sublist _)
  · intro m _ i hi
    exact ⟨rngD (t + m * dims + i), synthVec_getD dims rngD (t + m * dims) i hi,
      (hr _).1, (hr _).2⟩

/-- Witness for C7: one sample, capacity 2, one dimension, no norm
function, constant stream one half. -/
theorem claim_c7_witness :
    ∃ cs t2, quickCenters .vector [[FVal.val 0]] 2 1 none (fun _ => 1 / 2) 0 =
        .ok (sortVecs [[FVal.val 0]], cs, t2) ∧
      (∀ v ∈ ([[FVal.val 0]] : List Vec), v ∈ cs) ∧
      cs.length = 2 ∧
      cs = dedupAdj (sortVecs [[FVal.val 0]]) ++
        (List.range (2 - (dedupAdj (sortVecs [[FVal.val 0]])).length)).map
          (fun m => applyNormOpt none (synthVec 1 (fun _ => 1 / 2) (0 + m * 1))) ∧
      SortedB vecLeB (dedupAdj (sortVecs [[FVal.val 0]])) ∧
      (∀ m, m < 2 - (dedupAdj (sortVecs [[FVal.val 0]])).length →
        ∀ i, i < 1 →
          ∃ q, (synthVec 1 (fun _ => 1 / 2) (0 + m * 1)).getD i FVal.nan = FVal.val q ∧
            0 ≤ q ∧ q < 1) :=
  claim_c7_quick_path [[FVal.val 0]] 2 1 none (fun _ => 1 / 2) 0 (by decide)
    (by
      intro v hv x hx
      rw [List.mem_singleton] at hv
      subst hv
      rw [List.mem_singleton] at hx
      subst hx
      simp)
    (fun _ => by norm_num)

/-- C8: CheckCenters (for the supported vector type) raises a fatal
error exactly when the centers array has the wrong length, some
coordinate is NaN, some coordinate is infinite, two centers are
byte-equal (equivalently after the in-place sort two adjacent centers
are byte-equal), or the index-level norm function is configured and
some center has zero norm. -/
theorem claim_c8_checkCenters_error_iff (maxlen : ℕ) (inorm : Option (Vec → ℚ))
    (centers : List Vec) :
    (∃ e, checkCenters .vector maxlen inorm centers = .error e) ↔
      CheckFailCond maxlen inorm centers :=
  checkCenters_error_iff maxlen inorm centers

/-- C9: the norm adapter leaves the vector unmodified when the
computed norm is not strictly positive, and divides every coordinate
by the norm when it is strictly positive. -/
theorem claim_c9_applyNorm (normf : Vec → ℚ) (v : Vec) :
    (¬ 0 < normf v → applyNorm normf v = v) ∧
    (0 < normf v → (applyNorm normf v).length = v.length ∧
      ∀ i, i < v.length →
        (applyNorm normf v).getD i FVal.nan = (v.getD i FVal.nan).divQ (normf v)) := by
  constructor
  · intro h
    unfold applyNorm
    rw [if_neg h]
  · intro h
    unfold applyNorm
    rw [if_pos h]
    refine ⟨List.length_map v _, ?_⟩
    intro i hi
    rw [List.getD_eq_getElem _ _ (by simpa using hi), List.getD_eq_getElem _ _ hi]
    simp

/-- Witness for C9 with a strictly positive norm: the single
coordinate 4 is divided by the norm 2. -/
theorem claim_c9_witness :
    (applyNorm (fun _ => (2 : ℚ)) [FVal.val 4]).getD 0 FVal.nan =
      (FVal.val 4).divQ 2 :=
  ((claim_c9_applyNorm (fun _ => (2 : ℚ)) [FVal.val 4]).2 (by norm_num)).2 0 (by decide)

/-- C10: on every successful return from the driver the centers array
is sorted in ascending lexicographic vector order, because
CheckCenters sorts it in place before its duplicate scan, on both
training paths. -/
theorem claim_c10_centers_sorted (type : IvfflatType) (samples : List Vec)
    (maxlen dims : ℕ) (dist : Vec → Vec → ℚ) (knorm inorm : Option (Vec → ℚ))
    (rngI : ℕ) (rngD : ℕ → ℚ) (s2 cs : List Vec)
    (h : ivfflatKmeans type samples maxlen dims dist knorm inorm rngI rngD = .ok (s2, cs)) :
    SortedB vecLeB cs := by
  obtain ⟨⟨c0, hc0⟩, _⟩ := ivfflatKmeans_ok_cases h
  exact checkCenters_ok_sorted hc0

/-- Witness for C10: a successful concrete run whose returned centers
are sorted. -/
theorem claim_c10_witness :
    SortedB vecLeB [[FVal.val 3], [FVal.val 5]] :=
  claim_c10_centers_sorted .vector [[FVal.val 5], [FVal.val 3]] 2 1 (fun _ _ => 0)
    none none 0 (fun _ => 0) [[FVal.val 3], [FVal.val 5]] [[FVal.val 3], [FVal.val 5]]
    (by rfl)

end Ivf
